import Mathlib

/-
Verification of the zk-proof-system repository core: relaxed-R1CS folding,
the accumulator, the PoRE and DCI circuit gates, the witness calculator and
the C FFI surface, shallowly embedded from the Rust sources.
-/

set_option autoImplicit false

namespace ZkProofSystem

/-! ## Definitions

### Relaxed R1CS and folding (core/src/recursion.rs, mod folding) -/

/-- Relaxed R1CS instance, from `folding::RelaxedR1CS` in recursion.rs:
witness vector `w`, error term `e`, scaling scalar `u`, and the two
commitments (modelled, as in the source, as field elements). -/
structure RelaxedR1CS (F : Type) where
  w : List F
  e : F
  u : F
  comm_w : F
  comm_e : F
deriving DecidableEq, Repr

namespace RelaxedR1CS

variable {F : Type}

/-- `RelaxedR1CS::new`: strict instance with `e = 0`, `u = 1`, zero commitments. -/
def new [Zero F] [One F] (witness : List F) : RelaxedR1CS F :=
  { w := witness, e := 0, u := 1, comm_w := 0, comm_e := 0 }

/-- `RelaxedR1CS::fold`: componentwise `w1[i] + r * w2[i]` (via zip, so the
result is truncated to the shorter witness), and `x1 + r * x2` on the four
scalar fields. -/
def fold [Add F] [Mul F] (self other : RelaxedR1CS F) (r : F) : RelaxedR1CS F :=
  { w := List.zipWith (fun a b => a + r * b) self.w other.w
    e := self.e + r * other.e
    u := self.u + r * other.u
    comm_w := self.comm_w + r * other.comm_w
    comm_e := self.comm_e + r * other.comm_e }

end RelaxedR1CS

/-- Dot product of two vectors, truncating to the shorter one. -/
def dot {F : Type} [Mul F] [Add F] [Zero F] (xs ys : List F) : F :=
  (List.zipWith (fun a b => a * b) xs ys).sum

/-- The vector `z = (w, u, x)` of the relaxed R1CS relation. -/
def zVec {F : Type} (R : RelaxedR1CS F) (x : List F) : List F :=
  R.w ++ [R.u] ++ x

/-- One row of the relaxed R1CS relation: `(A_i·z) * (B_i·z) = u * (C_i·z) + e`. -/
def rowOk {F : Type} [Mul F] [Add F] [Zero F] [DecidableEq F]
    (z : List F) (u e : F) (abc : List F × List F × List F) : Bool :=
  decide (dot abc.1 z * dot abc.2.1 z = u * dot abc.2.2 z + e)

/-- The relaxed R1CS relation `(A·z) ∘ (B·z) = u · (C·z) + e` with
`z = (w, u, x)`, row by row, for matrices given as lists of rows.
This is the satisfiability predicate the specification states for
`RelaxedR1CS` instances (the source carries it only in comments). -/
def satisfies {F : Type} [Mul F] [Add F] [Zero F] [DecidableEq F]
    (A B C : List (List F)) (x : List F) (R : RelaxedR1CS F) : Bool :=
  (List.zip A (List.zip B C)).all (rowOk (zVec R x) R.u R.e)

/-- `folding::FoldingVerifier`: a list of accumulated instances. -/
structure FoldingVerifier (F : Type) where
  instances : List (RelaxedR1CS F)

namespace FoldingVerifier

variable {F : Type}

/-- `FoldingVerifier::new`. -/
def new : FoldingVerifier F := ⟨[]⟩

/-- `FoldingVerifier::verify`: the source returns `true` unconditionally. -/
def verify (_self : FoldingVerifier F) (_proof : RelaxedR1CS F) : Bool :=
  true

/-- `FoldingVerifier::add_instance`. -/
def add_instance (self : FoldingVerifier F) (instance_ : RelaxedR1CS F) :
    FoldingVerifier F :=
  ⟨self.instances ++ [instance_]⟩

end FoldingVerifier

/-- A one-constraint R1CS `w * w = u * u` over `ZMod 101`:
`A = B = [[1,0]]` select the witness entry of `z = (w, u)`,
`C = [[0,1]]` selects `u`. -/
def cexA : List (List (ZMod 101)) := [[1, 0]]

def cexB : List (List (ZMod 101)) := [[1, 0]]

def cexC : List (List (ZMod 101)) := [[0, 1]]

/-- Strict instance with witness `w = 1`: satisfies `w * w = u * u` since `u = 1`. -/
def cexR1 : RelaxedR1CS (ZMod 101) := RelaxedR1CS.new [1]

/-- Strict instance with witness `w = -1 = 100`: also satisfies `w * w = u * u`. -/
def cexR2 : RelaxedR1CS (ZMod 101) := RelaxedR1CS.new [100]

/-- A relaxed instance with `w = 0`, `e = 0`, `u = 1` that violates the
constraint `w * w = u * u`: `0 ≠ 1`. -/
def cexBadProof : RelaxedR1CS (ZMod 101) :=
  { w := [0], e := 0, u := 1, comm_w := 0, comm_e := 0 }

/-! ### PoRE add-mul gate (core/src/circuits/pore.rs) -/

/-- `PoREConfig::configure_add_mul_gate`: the gate's polynomial list for one
row, with the selector value `s` and the row's advice assignment `adv`
(columns 0..4 hold `a, b, c, d, out`). The source pushes the single
polynomial `s * (out - ((a + b) * c + d))`. -/
def addMulGate {F : Type} [CommRing F] (s : F) (adv : ℕ → F) : List F :=
  [s * (adv 4 - ((adv 0 + adv 1) * adv 2 + adv 3))]

/-! ### DCI Merkle gate (core/src/circuits/dci.rs) -/

/-- `DCIConfig::configure_merkle_verification`: the gate's polynomial list
for one row, with selector value `s` and the row's advice assignment `adv`
(column 0 = leaf, 1 = path element, 2 = direction, 3 = hash output). The
source pushes the single polynomial
`s * (h - ((leaf*(1-dir) + sib*dir) + (sib*(1-dir) + leaf*dir)))`. -/
def merkleGate {F : Type} [CommRing F] (s : F) (adv : ℕ → F) : List F :=
  [s * (adv 3 - ((adv 0 * (1 - adv 2) + adv 1 * adv 2)
                  + (adv 1 * (1 - adv 2) + adv 0 * adv 2)))]

/-! ### DCI balance gate and range lookups (core/src/circuits/dci.rs) -/

/-- Modulus of the Pasta base field `pallas::Base` used by the circuits. -/
def pastaP : ℕ :=
  0x40000000000000000000000000000000224698fc094cf91b992d30ed00000001

instance : NeZero pastaP := ⟨by norm_num [pastaP]⟩

/-- The circuit field: `pallas::Base`. -/
abbrev Fp := ZMod pastaP

/-- The byte the DCI synthesis assigns into `advice[6 + i]`: the `i`-th
little-endian byte of the canonical representation of the balance,
`balance.to_repr().as_ref()[..8]` in the source. -/
def balanceByte (v : Fp) (i : ℕ) : ℕ :=
  v.val / 2 ^ (8 * i) % 256

/-- The reconstruction expression of the balance gate: the fold
`acc + chunk_i * 2^(8*i)` over the eight chunks, as built in
`DCIConfig::configure_balance_proofs`. -/
def balanceReconstruct {F : Type} [CommRing F] (chunk : ℕ → F) : F :=
  (List.range 8).foldl (fun acc i => acc + chunk i * ((2 ^ (8 * i) : ℕ) : F)) 0

/-- The balance gate's polynomial list for one row:
`s * (balance - reconstructed)`. -/
def balanceGate {F : Type} [CommRing F] (s balance : F) (chunk : ℕ → F) :
    List F :=
  [s * (balance - balanceReconstruct chunk)]

/-- Membership in the 8-bit range table populated with `0..256` at
synthesis start. -/
def inRangeTable {F : Type} [CommRing F] (c : F) : Prop :=
  ∃ t, t < 256 ∧ ((t : ℕ) : F) = c

/-! ### Accumulator (core/src/recursion.rs) -/

/-- `Accumulator<C>`: running commitment (a group element `G`), running
challenge and per-proof challenge vector over the scalar field `F`, and the
proof count. -/
structure Accumulator (G F : Type) where
  commitment : G
  challenge : F
  acc_vec : List F
  proof_count : ℕ
deriving Repr

namespace Accumulator

variable {G F : Type}

/-- `Accumulator::new`: identity point, zero challenge, empty vector, count 0. -/
def new [Zero G] [Zero F] : Accumulator G F :=
  { commitment := 0, challenge := 0, acc_vec := [], proof_count := 0 }

/-- `Accumulator::accumulate`: `C_a + r·C`, `χ + r`, push `r`, count + 1. -/
def accumulate [Add G] [SMul F G] [Add F]
    (acc : Accumulator G F) (proof_commitment : G) (challenge : F) :
    Accumulator G F :=
  { commitment := acc.commitment + challenge • proof_commitment
    challenge := acc.challenge + challenge
    acc_vec := acc.acc_vec ++ [challenge]
    proof_count := acc.proof_count + 1 }

/-- Run a finite sequence of `accumulate` calls from `new`. -/
def runAccumulate [AddCommMonoid G] [AddCommMonoid F] [SMul F G]
    (steps : List (G × F)) : Accumulator G F :=
  steps.foldl (fun acc step => acc.accumulate step.1 step.2) new

end Accumulator

/-! ### Witness calculator (core/src/circuits/dci.rs, mod witness) -/

/-- `halo2` `Value<F>`: either unknown or a known field element. -/
inductive Value (F : Type) where
  | unknown : Value F
  | known : F → Value F
deriving DecidableEq, Repr

/-- `witness::WitnessCalculator`: the mutex-protected cache of
`(input, witness)` pairs, in insertion order. -/
structure WitnessCalculator (F : Type) where
  cache : List (List F × List (Value F))

namespace WitnessCalculator

variable {F : Type}

/-- `WitnessCalculator::new`: empty cache. -/
def new : WitnessCalculator F := ⟨[]⟩

/-- `WitnessCalculator::generate_single`: scan the cache for an entry whose
input equals `input` and return its witness; on a miss, build
`input.map Value.known`, push `(input, witness)` and drop the oldest entry
once the cache exceeds 1000 entries. Returns the witness together with the
updated cache state. -/
def generate_single [DecidableEq F] (c : WitnessCalculator F)
    (input : List F) : List (Value F) × WitnessCalculator F :=
  match c.cache.find? (fun p => decide (p.1 = input)) with
  | some p => (p.2, c)
  | none =>
      let w := input.map Value.known
      let c1 := c.cache ++ [(input, w)]
      (w, ⟨if 1000 < c1.length then c1.tail else c1⟩)

/-- `WitnessCalculator::generate_parallel`: order-preserving data-parallel
map of `generate_single` over the batch. Each call's returned witness is a
function of its own input and the shared cache, so the parallel stage is
modelled as a pure map of result components. -/
def generate_parallel [DecidableEq F] (c : WitnessCalculator F)
    (inputs : List (List F)) : List (List (Value F)) :=
  inputs.map (fun input => (generate_single c input).1)

end WitnessCalculator

/-- Cache well-formedness: every cached witness is the elementwise
`Value.known` image of its key. Every cache reachable from `new` through
`generate_single` keeps this shape. -/
def cacheInv {F : Type} (c : WitnessCalculator F) : Prop :=
  ∀ p ∈ c.cache, p.2 = p.1.map Value.known

/-! ### Foreign-function surface (bindings/src/ffi.rs) -/

/-- `zk_proof_create`: raw pointers modelled as `Option` (`none` = null).
The source returns `-1` when `input`, `output` or `output_len` is null and
`0` otherwise; the body is a stub that performs no buffer-size check. -/
def zk_proof_create (input : Option (List ℕ)) (_input_len : ℕ)
    (output : Option (List ℕ)) (output_len : Option ℕ) : Int :=
  if input = none ∨ output = none ∨ output_len = none then -1 else 0

/-- `zk_proof_verify`: returns `-1` when `proof` is null and `0` otherwise;
the stub body never inspects the proof bytes. -/
def zk_proof_verify (proof : Option (List ℕ)) (_proof_len : ℕ) : Int :=
  if proof = none then -1 else 0

/-! ## Theorems -/

/-- C1: the claim fails on the code. `RelaxedR1CS::fold` updates the error
term as `e1 + r * e2`, dropping the Nova cross term `r * T`, so folding two
instances that both satisfy the relaxed R1CS relation for the matrices
`cexA, cexB, cexC` (constraint `w * w = u * u`) at challenge `r = 1` yields
an instance that does not satisfy the relation: the folded `z = (0, 2)`
gives `0 * 0 = 0` on the left but `2 * 2 = 4` on the right. -/
theorem fold_breaks_satisfiability :
    satisfies cexA cexB cexC [] cexR1 = true ∧
    satisfies cexA cexB cexC [] cexR2 = true ∧
    satisfies cexA cexB cexC [] (cexR1.fold cexR2 1) = false := by
  decide

/-- C2: the claim fails on the code. `FoldingVerifier::verify` returns
`true` unconditionally, so it returns `true` on `cexBadProof` even though
that instance does not satisfy the relaxed R1CS relation for the matrices
`cexA, cexB, cexC`. -/
theorem verify_accepts_unsatisfiable :
    FoldingVerifier.verify (FoldingVerifier.new) cexBadProof = true ∧
    satisfies cexA cexB cexC [] cexBadProof = false := by
  decide

/-- Indexwise view of `zipWith`. -/
theorem zipWith_getD {α : Type} (f : α → α → α) (d : α) :
    ∀ (xs ys : List α) (i : ℕ), i < xs.length → i < ys.length →
      (List.zipWith f xs ys).getD i d = f (xs.getD i d) (ys.getD i d) := by
  intro xs
  induction xs with
  | nil => intro ys i h1 _; exact absurd h1 (by simp)
  | cons a as ih =>
    intro ys i h1 h2
    cases ys with
    | nil => exact absurd h2 (by simp)
    | cons b bs =>
      cases i with
      | zero => rfl
      | succ n =>
        simp only [List.zipWith_cons_cons, List.getD_cons_succ]
        exact ih bs n (by simpa using h1) (by simpa using h2)

/-- C3: `fold` computes `w[i] = w1[i] + r * w2[i]` for every index of
equal-length witnesses, `e = e1 + r * e2`, `u = u1 + r * u2`,
`comm_w = comm_w1 + r * comm_w2`, `comm_e = comm_e1 + r * comm_e2`; and on
the strict instances with witnesses `[1,2,3]` and `[4,5,6]` at `r = 7` the
folded witness is `[29, 37, 45]` and the folded `u` is `8`. -/
theorem fold_formula {F : Type} [CommRing F] (R1 R2 : RelaxedR1CS F) (r : F)
    (hlen : R1.w.length = R2.w.length) :
    (∀ i < R1.w.length,
        (R1.fold R2 r).w.getD i 0 = R1.w.getD i 0 + r * R2.w.getD i 0) ∧
    (R1.fold R2 r).e = R1.e + r * R2.e ∧
    (R1.fold R2 r).u = R1.u + r * R2.u ∧
    (R1.fold R2 r).comm_w = R1.comm_w + r * R2.comm_w ∧
    (R1.fold R2 r).comm_e = R1.comm_e + r * R2.comm_e ∧
    ((RelaxedR1CS.new (F := F) [1, 2, 3]).fold (RelaxedR1CS.new [4, 5, 6]) 7).w
        = [29, 37, 45] ∧
    ((RelaxedR1CS.new (F := F) [1, 2, 3]).fold (RelaxedR1CS.new [4, 5, 6]) 7).u
        = 8 := by
  refine ⟨fun i hi => ?_, rfl, rfl, rfl, rfl, ?_, ?_⟩
  · exact zipWith_getD _ _ R1.w R2.w i hi (hlen ▸ hi)
  · show [(1 : F) + 7 * 4, 2 + 7 * 5, 3 + 7 * 6] = [29, 37, 45]
    norm_num
  · show (1 : F) + 7 * 1 = 8
    norm_num

/-- C3 witness: the fold formula instantiated on the concrete strict
instances with witnesses `[1,2,3]` and `[4,5,6]` at `r = 7` over `ZMod 101`. -/
theorem fold_formula_witness :
    (∀ i < (RelaxedR1CS.new (F := ZMod 101) [1, 2, 3]).w.length,
        ((RelaxedR1CS.new (F := ZMod 101) [1, 2, 3]).fold
            (RelaxedR1CS.new [4, 5, 6]) 7).w.getD i 0
          = (RelaxedR1CS.new (F := ZMod 101) [1, 2, 3]).w.getD i 0
              + 7 * (RelaxedR1CS.new (F := ZMod 101) [4, 5, 6]).w.getD i 0) ∧
    ((RelaxedR1CS.new (F := ZMod 101) [1, 2, 3]).fold
        (RelaxedR1CS.new [4, 5, 6]) 7).e
      = (RelaxedR1CS.new (F := ZMod 101) [1, 2, 3]).e
          + 7 * (RelaxedR1CS.new (F := ZMod 101) [4, 5, 6]).e ∧
    ((RelaxedR1CS.new (F := ZMod 101) [1, 2, 3]).fold
        (RelaxedR1CS.new [4, 5, 6]) 7).u
      = (RelaxedR1CS.new (F := ZMod 101) [1, 2, 3]).u
          + 7 * (RelaxedR1CS.new (F := ZMod 101) [4, 5, 6]).u ∧
    ((RelaxedR1CS.new (F := ZMod 101) [1, 2, 3]).fold
        (RelaxedR1CS.new [4, 5, 6]) 7).comm_w
      = (RelaxedR1CS.new (F := ZMod 101) [1, 2, 3]).comm_w
          + 7 * (RelaxedR1CS.new (F := ZMod 101) [4, 5, 6]).comm_w ∧
    ((RelaxedR1CS.new (F := ZMod 101) [1, 2, 3]).fold
        (RelaxedR1CS.new [4, 5, 6]) 7).comm_e
      = (RelaxedR1CS.new (F := ZMod 101) [1, 2, 3]).comm_e
          + 7 * (RelaxedR1CS.new (F := ZMod 101) [4, 5, 6]).comm_e ∧
    ((RelaxedR1CS.new (F := ZMod 101) [1, 2, 3]).fold
        (RelaxedR1CS.new [4, 5, 6]) 7).w = [29, 37, 45] ∧
    ((RelaxedR1CS.new (F := ZMod 101) [1, 2, 3]).fold
        (RelaxedR1CS.new [4, 5, 6]) 7).u = 8 :=
  fold_formula (RelaxedR1CS.new [1, 2, 3]) (RelaxedR1CS.new [4, 5, 6]) 7 rfl

/-- C4: at a row where `s_add_mul = 1` the add-mul gate contributes exactly
one polynomial constraint, and that constraint holds iff
`out = (a + b) * c + d` with `a, b, c, d, out` read from advice columns
0 through 4 of that row. -/
theorem addMulGate_correct {F : Type} [CommRing F] (adv : ℕ → F) :
    (addMulGate (1 : F) adv).length = 1 ∧
    ((∀ p ∈ addMulGate (1 : F) adv, p = 0) ↔
      adv 4 = (adv 0 + adv 1) * adv 2 + adv 3) := by
  constructor
  · rfl
  · simp [addMulGate, sub_eq_zero]

/-- C7: the Merkle gate's left-plus-right expression collapses to
`leaf + sib` for every direction value, so at a row with `s_merkle = 1` the
gate constrains exactly `advice[3] = advice[0] + advice[1]` and the
direction in `advice[2]` has no effect — boolean or not. -/
theorem merkleGate_direction_irrelevant {F : Type} [CommRing F]
    (leaf sib dir : F) (adv : ℕ → F) :
    (leaf * (1 - dir) + sib * dir) + (sib * (1 - dir) + leaf * dir)
        = leaf + sib ∧
    ((∀ p ∈ merkleGate (1 : F) adv, p = 0) ↔ adv 3 = adv 0 + adv 1) := by
  constructor
  · ring
  · have h : (adv 0 * (1 - adv 2) + adv 1 * adv 2)
        + (adv 1 * (1 - adv 2) + adv 0 * adv 2) = adv 0 + adv 1 := by ring
    simp [merkleGate, h, sub_eq_zero]

/-- Base-256 reconstruction of the low 64 bits of a natural number. -/
theorem natReconstruct_eq (n : ℕ) :
    ((List.range 8).map (fun i => n / 2 ^ (8 * i) % 256 * 2 ^ (8 * i))).sum
      = n % 2 ^ 64 := by
  have h : List.range 8 = [0, 1, 2, 3, 4, 5, 6, 7] := by decide
  rw [h]
  simp only [List.map_cons, List.map_nil, List.sum_cons, List.sum_nil]
  norm_num
  omega

/-- The balance-gate reconstruction of the synthesized bytes equals the
cast of the low 64 bits of the balance. -/
theorem balanceReconstruct_cast (n : ℕ) :
    balanceReconstruct (F := Fp) (fun i => ((n / 2 ^ (8 * i) % 256 : ℕ) : Fp))
      = ((n % 2 ^ 64 : ℕ) : Fp) := by
  rw [← natReconstruct_eq n]
  have h : List.range 8 = [0, 1, 2, 3, 4, 5, 6, 7] := by decide
  rw [balanceReconstruct, h]
  simp only [List.foldl_cons, List.foldl_nil, List.map_cons, List.map_nil,
    List.sum_cons, List.sum_nil]
  push_cast
  ring

/-- C5: for a balance `v` assigned by DCI synthesis (value in `advice[5]`,
first 8 little-endian bytes of its representation in `advice[6..14]`), the
balance gate together with the eight per-chunk 8-bit range lookups is
satisfied iff `v.val < 2^64`; every balance with `v.val ≥ 2^64` fails. -/
theorem dci_balance_range (v : Fp) :
    ((∀ p ∈ balanceGate (1 : Fp) v (fun i => ((balanceByte v i : ℕ) : Fp)),
          p = 0) ∧
        (∀ i < 8, inRangeTable (((balanceByte v i : ℕ) : Fp)))) ↔
      v.val < 2 ^ 64 := by
  have hcast : balanceReconstruct (F := Fp)
      (fun i => ((balanceByte v i : ℕ) : Fp)) = ((v.val % 2 ^ 64 : ℕ) : Fp) := by
    have := balanceReconstruct_cast v.val
    simpa [balanceByte] using this
  have hmodlt : v.val % 2 ^ 64 < 2 ^ 64 := Nat.mod_lt _ (by norm_num)
  have hmodp : v.val % 2 ^ 64 < pastaP := by
    have : (2 : ℕ) ^ 64 < pastaP := by norm_num [pastaP]
    omega
  constructor
  · rintro ⟨hg, _⟩
    have h0 : (1 : Fp) * (v - balanceReconstruct
        (fun i => ((balanceByte v i : ℕ) : Fp))) = 0 :=
      hg _ (by simp [balanceGate])
    rw [one_mul, sub_eq_zero, hcast] at h0
    have hv : v.val = v.val % 2 ^ 64 := by
      have := congrArg ZMod.val h0
      rwa [ZMod.val_cast_of_lt hmodp] at this
    omega
  · intro hlt
    refine ⟨?_, ?_⟩
    · intro p hp
      have hp1 : p = (1 : Fp) * (v - balanceReconstruct
          (fun i => ((balanceByte v i : ℕ) : Fp))) := by
        simpa [balanceGate] using hp
      rw [hp1, one_mul, sub_eq_zero, hcast, Nat.mod_eq_of_lt hlt]
      exact (ZMod.natCast_rightInverse v).symm
    · intro i _
      exact ⟨balanceByte v i, Nat.mod_lt _ (by norm_num), rfl⟩

/-- Counting helper for C6: `accumulate` adds one to the count and one entry
to the vector, uniformly over the fold. -/
theorem runAccumulate_counts {G F : Type}
    [AddCommMonoid G] [AddCommMonoid F] [SMul F G] :
    ∀ (steps : List (G × F)) (acc : Accumulator G F),
      (steps.foldl (fun a step => a.accumulate step.1 step.2) acc).proof_count
          = acc.proof_count + steps.length ∧
      (steps.foldl (fun a step => a.accumulate step.1 step.2) acc).acc_vec.length
          = acc.acc_vec.length + steps.length := by
  intro steps
  induction steps with
  | nil => intro acc; simp
  | cons s rest ih =>
    intro acc
    have h := ih (acc.accumulate s.1 s.2)
    simp only [List.foldl_cons, List.length_cons]
    constructor
    · rw [h.1]; simp [Accumulator.accumulate]; omega
    · rw [h.2]; simp [Accumulator.accumulate]; omega

/-- C6: `new` is the all-zero state; `accumulate C r` replaces the
commitment with `commitment + r • C`, adds `r` to the running challenge,
appends `r` to `acc_vec` and increments `proof_count` by one; and after any
`n` accumulate calls starting from `new`, `proof_count = n` and
`acc_vec.length = n`. -/
theorem accumulator_accumulate_spec {G F : Type}
    [AddCommMonoid G] [AddCommMonoid F] [SMul F G]
    (acc : Accumulator G F) (C : G) (r : F) (steps : List (G × F)) :
    (Accumulator.new (G := G) (F := F)).commitment = 0 ∧
    (Accumulator.new (G := G) (F := F)).challenge = 0 ∧
    (Accumulator.new (G := G) (F := F)).acc_vec = [] ∧
    (Accumulator.new (G := G) (F := F)).proof_count = 0 ∧
    (acc.accumulate C r).commitment = acc.commitment + r • C ∧
    (acc.accumulate C r).challenge = acc.challenge + r ∧
    (acc.accumulate C r).acc_vec = acc.acc_vec ++ [r] ∧
    (acc.accumulate C r).proof_count = acc.proof_count + 1 ∧
    (Accumulator.runAccumulate steps).proof_count = steps.length ∧
    (Accumulator.runAccumulate steps).acc_vec.length = steps.length := by
  refine ⟨rfl, rfl, rfl, rfl, rfl, rfl, rfl, rfl, ?_, ?_⟩
  · have h := runAccumulate_counts steps (Accumulator.new (G := G) (F := F))
    simpa [Accumulator.runAccumulate, Accumulator.new] using h.1
  · have h := runAccumulate_counts steps (Accumulator.new (G := G) (F := F))
    simpa [Accumulator.runAccumulate, Accumulator.new] using h.2

/-- Invariant helper for C9: the fold preserves the relation between the
running challenge and the challenge vector. -/
theorem runAccumulate_inv {G F : Type}
    [AddCommMonoid G] [AddCommMonoid F] [SMul F G] :
    ∀ (steps : List (G × F)) (acc : Accumulator G F),
      acc.challenge = acc.acc_vec.sum →
      acc.proof_count = acc.acc_vec.length →
      (steps.foldl (fun a step => a.accumulate step.1 step.2) acc).challenge
          = (steps.foldl (fun a step => a.accumulate step.1 step.2) acc).acc_vec.sum ∧
      (steps.foldl (fun a step => a.accumulate step.1 step.2) acc).proof_count
          = (steps.foldl (fun a step => a.accumulate step.1 step.2) acc).acc_vec.length := by
  intro steps
  induction steps with
  | nil => intro acc h1 h2; exact ⟨h1, h2⟩
  | cons s rest ih =>
    intro acc h1 h2
    refine ih (acc.accumulate s.1 s.2) ?_ ?_
    · simp [Accumulator.accumulate, h1]
    · simp [Accumulator.accumulate, h2]

/-- C9: every accumulator state reachable from `new` by a finite sequence
of `accumulate` calls has its running challenge equal to the sum of
`acc_vec` and its `proof_count` equal to the length of `acc_vec`. -/
theorem accumulator_invariant {G F : Type}
    [AddCommMonoid G] [AddCommMonoid F] [SMul F G] (steps : List (G × F)) :
    (Accumulator.runAccumulate (G := G) steps).challenge
        = (Accumulator.runAccumulate (G := G) steps).acc_vec.sum ∧
    (Accumulator.runAccumulate (G := G) steps).proof_count
        = (Accumulator.runAccumulate (G := G) steps).acc_vec.length := by
  exact runAccumulate_inv steps Accumulator.new (by simp [Accumulator.new]) rfl

/-- C8: under the cache invariant, `generate_single` returns exactly
`input.map Value.known` (also when the result is served from the cache),
preserves the invariant, and `generate_parallel` returns one result per
input, in batch order, each equal to the corresponding `generate_single`
result. -/
theorem witness_calculator_correct {F : Type} [DecidableEq F]
    (c : WitnessCalculator F) (hinv : cacheInv c)
    (input : List F) (inputs : List (List F)) :
    (c.generate_single input).1 = input.map Value.known ∧
    cacheInv (c.generate_single input).2 ∧
    c.generate_parallel inputs
        = inputs.map (fun inp => (c.generate_single inp).1) ∧
    c.generate_parallel inputs
        = inputs.map (fun inp => inp.map Value.known) := by
  have hsingle : ∀ xs : List F,
      (c.generate_single xs).1 = xs.map Value.known := by
    intro xs
    unfold WitnessCalculator.generate_single
    cases hfind : c.cache.find? (fun p => decide (p.1 = xs)) with
    | none => rfl
    | some p =>
      have hmem : p ∈ c.cache := List.mem_of_find?_eq_some hfind
      have hkey : p.1 = xs := by
        have := List.find?_some hfind
        simpa using this
      simpa [hkey] using hinv p hmem
  refine ⟨hsingle input, ?_, rfl, ?_⟩
  · unfold WitnessCalculator.generate_single
    cases hfind : c.cache.find? (fun p => decide (p.1 = input)) with
    | none =>
      simp only [cacheInv]
      intro p hp
      by_cases hlen : 1000 < (c.cache ++ [(input, input.map Value.known)]).length
      · simp only [hlen, if_pos] at hp
        have hp2 : p ∈ c.cache ++ [(input, input.map Value.known)] :=
          List.mem_of_mem_tail hp
        rcases List.mem_append.mp hp2 with h | h
        · exact hinv p h
        · simp only [List.mem_singleton] at h
          subst h; rfl
      · simp only [hlen, if_neg, not_false_iff] at hp
        rcases List.mem_append.mp hp with h | h
        · exact hinv p h
        · simp only [List.mem_singleton] at h
          subst h; rfl
    | some p => exact hinv
  · unfold WitnessCalculator.generate_parallel
    exact List.map_congr_left (fun inp _ => hsingle inp)

/-- C8 witness: the empty cache satisfies the invariant, and on input
`[1, 2]` over `ZMod 101` with batch `[[3]]` the calculator returns the
expected known-value witnesses. -/
theorem witness_calculator_correct_witness :
    ((WitnessCalculator.new (F := ZMod 101)).generate_single [1, 2]).1
        = [(1 : ZMod 101), 2].map Value.known ∧
    cacheInv ((WitnessCalculator.new (F := ZMod 101)).generate_single [1, 2]).2 ∧
    (WitnessCalculator.new (F := ZMod 101)).generate_parallel [[3]]
        = [[(3 : ZMod 101)]].map
            (fun inp => ((WitnessCalculator.new (F := ZMod 101)).generate_single inp).1) ∧
    (WitnessCalculator.new (F := ZMod 101)).generate_parallel [[3]]
        = [[(3 : ZMod 101)]].map (fun inp => inp.map Value.known) :=
  witness_calculator_correct WitnessCalculator.new
    (by intro p hp; simp [WitnessCalculator.new] at hp) [1, 2] [[3]]

/-- C10: the claim fails on the code. Both FFI functions are stubs: with
all pointers non-null, `zk_proof_create` returns `0` even for a
zero-capacity output buffer (no insufficiency check exists), and
`zk_proof_verify` returns `0` on every non-null proof — it can never
return `1` for an invalid proof. The null-pointer paths do return `-1`. -/
theorem ffi_stub_divergence :
    zk_proof_create (some []) 0 (some []) (some 0) = 0 ∧
    zk_proof_verify (some [0]) 1 = 0 ∧
    (∀ p n, zk_proof_verify (some p) n ≠ 1) ∧
    zk_proof_create none 0 (some []) (some 0) = -1 ∧
    zk_proof_verify none 0 = -1 := by
  refine ⟨rfl, rfl, fun p n => by simp [zk_proof_verify], rfl, rfl⟩

end ZkProofSystem
